import Mathlib

/-!
Verification of the SP1060 LNHR DAC driver (`SP1060_24_AWG.py`) against its
natural-language specification.

Shallow embedding conventions:
* Python floats are modelled as exact rationals (`ℚ`); the numeric claims
  checked here live far from any binary-rounding boundary.
* Python strings are modelled as `List Char`; helper functions reproduce the
  semantics of the library calls the source uses (`int(s, 16)`, `hex`,
  `str.strip`, `str.replace`, `str.split`).
* Fallible code is modelled with `Option`/`Except`.  The source's bare
  `except: pass` blocks, which make a function return Python `None`, are
  modelled as the function returning `none`.
* The instrument I/O layer is modelled as a trace of transport events.
-/

/-- Fixed scale constant of the codec, `838860.75` in the source
(`SP1060Reader`), i.e. `3355443/4` exactly. -/
def dacConst : ℚ := 838860.75

/-- Truncation toward zero, the semantics of Python `int()` applied to a
number. -/
def ratTrunc (q : ℚ) : ℤ := if 0 ≤ q then ⌊q⌋ else ⌈q⌉

/-- `SP1060Reader._vval_to_dacval`: `int((float(vval)+10)*838860.75)`.
For a numeric argument the `try` body never raises, so the function is total
here (the swallowed-exception path is only reachable for non-numeric input,
which a `ℚ` argument excludes). -/
def vval_to_dacval (vval : ℚ) : ℤ := ratTrunc ((vval + 10) * dacConst)

/-- Round-half-to-even on `ℚ`, the tie rule of Python's `round`. -/
def roundHalfEven (q : ℚ) : ℤ :=
  if q - ⌊q⌋ < 1 / 2 then ⌊q⌋
  else if 1 / 2 < q - ⌊q⌋ then ⌊q⌋ + 1
  else if Even ⌊q⌋ then ⌊q⌋ else ⌊q⌋ + 1

/-- Python `round(q, 6)`: round to six decimal places, ties to even. -/
def pyRound6 (q : ℚ) : ℚ := (roundHalfEven (q * 10 ^ 6) : ℚ) / 10 ^ 6

/-- Lower-case hexadecimal digit characters, as produced by Python `hex`. -/
def hexDigitChar : ℕ → Char
  | 0 => '0' | 1 => '1' | 2 => '2' | 3 => '3' | 4 => '4'
  | 5 => '5' | 6 => '6' | 7 => '7' | 8 => '8' | 9 => '9'
  | 10 => 'a' | 11 => 'b' | 12 => 'c' | 13 => 'd' | 14 => 'e' | _ => 'f'

/-- Value of one hexadecimal digit character (either case), as accepted by
Python `int(s, 16)`. -/
def hexDigitVal (c : Char) : Option ℕ :=
  if '0' ≤ c ∧ c ≤ '9' then some (c.toNat - '0'.toNat)
  else if 'a' ≤ c ∧ c ≤ 'f' then some (c.toNat - 'a'.toNat + 10)
  else if 'A' ≤ c ∧ c ≤ 'F' then some (c.toNat - 'A'.toNat + 10)
  else none

/-- Hexadecimal digit list (most significant first) of a positive natural
number, using the given digit alphabet; empty for `0`. -/
def toHexDigitsWith (dig : ℕ → Char) : ℕ → List Char
  | 0 => []
  | n + 1 => toHexDigitsWith dig ((n + 1) / 16) ++ [dig ((n + 1) % 16)]
  termination_by n => n
  decreasing_by exact Nat.div_lt_self (Nat.succ_pos n) (by norm_num)

/-- Lower-case hexadecimal digits of a natural number (Python `hex` body). -/
def toHexDigits (n : ℕ) : List Char := toHexDigitsWith hexDigitChar n

/-- Python `hex(n)` for a natural number: `0x` prefix plus lower-case
digits. -/
def pyHexNat (n : ℕ) : List Char :=
  '0' :: 'x' :: (if n = 0 then ['0'] else toHexDigits n)

/-- Python `hex(n)` on an arbitrary integer: a leading minus sign for
negative input. -/
def pyHex (n : ℤ) : List Char :=
  if n < 0 then '-' :: pyHexNat n.natAbs else pyHexNat n.natAbs

/-- Accumulator pass of the base-16 parse of Python `int(s, 16)`. -/
def parseHexNatAux : List Char → ℕ → Option ℕ
  | [], acc => some acc
  | c :: rest, acc =>
    match hexDigitVal c with
    | some d => parseHexNatAux rest (acc * 16 + d)
    | none => none

/-- Base-16 parse of a nonempty digit string. -/
def parseHexDigits : List Char → Option ℕ
  | [] => none
  | c :: rest => parseHexNatAux (c :: rest) 0

/-- Drop an optional `0x`/`0X` marker, as Python `int(s, 16)` allows. -/
def dropHexMark (l : List Char) : List Char :=
  match l with
  | c0 :: c1 :: rest => if c0 = '0' ∧ (c1 = 'x' ∨ c1 = 'X') then rest else l
  | _ => l

/-- Python `int(s, 16)` on a whitespace-free string: optional sign, optional
`0x` marker, then hexadecimal digits; `none` when the text is not valid
hexadecimal (digit-grouping underscores are not modelled). -/
def parseHexInt (l : List Char) : Option ℤ :=
  match l with
  | [] => none
  | c :: rest =>
    if c = '-' then (parseHexDigits (dropHexMark rest)).map (fun n => -(n : ℤ))
    else if c = '+' then (parseHexDigits (dropHexMark rest)).map (fun n => (n : ℤ))
    else (parseHexDigits (dropHexMark (c :: rest))).map (fun n => (n : ℤ))

/-- Python whitespace predicate used by `str.strip()`. -/
def isPySpace (c : Char) : Bool :=
  c = ' ' ∨ c = '\t' ∨ c = '\n' ∨ c = '\r' ∨ c = '\x0b' ∨ c = '\x0c'

/-- Python `str.strip()`: drop whitespace from both ends. -/
def pyStrip (l : List Char) : List Char :=
  ((l.dropWhile isPySpace).reverse.dropWhile isPySpace).reverse

/-- `SP1060Reader._dacval_to_vval`:
`round((int(dacval.strip(),16)/float(838860.75))-10, 6)` wrapped in a bare
`try/except: pass`, so any parse failure makes the function return Python
`None`, modelled as `none`. -/
def dacval_to_vval (raw : List Char) : Option ℚ :=
  match parseHexInt (pyStrip raw) with
  | none => none
  | some n => some (pyRound6 ((n : ℚ) / dacConst - 10))

/-- Parsing one produced digit character recovers the digit. -/
theorem hexDigitVal_hexDigitChar (d : ℕ) (hd : d < 16) :
    hexDigitVal (hexDigitChar d) = some d := by
  interval_cases d <;> decide

/-- The base-16 accumulator pass distributes over append. -/
theorem parseHexNatAux_append (l₁ l₂ : List Char) (acc : ℕ) :
    parseHexNatAux (l₁ ++ l₂) acc =
      (parseHexNatAux l₁ acc).bind (fun a => parseHexNatAux l₂ a) := by
  induction l₁ generalizing acc with
  | nil => simp [parseHexNatAux]
  | cons c rest ih =>
    simp only [List.cons_append, parseHexNatAux]
    cases hexDigitVal c with
    | none => simp
    | some d => simp [ih]

/-- Value of the digit list of `n`, threaded through an accumulator. -/
theorem parseHexNatAux_toHexDigits (n : ℕ) :
    ∀ acc, parseHexNatAux (toHexDigits n) acc =
      some (acc * 16 ^ (toHexDigits n).length + n) := by
  induction n using Nat.strong_induction_on with
  | _ n ih =>
    intro acc
    match n with
    | 0 => simp [toHexDigits, toHexDigitsWith, parseHexNatAux]
    | m + 1 =>
      have hstep : toHexDigits (m + 1) =
          toHexDigits ((m + 1) / 16) ++ [hexDigitChar ((m + 1) % 16)] := by
        rw [toHexDigits, toHexDigits, toHexDigitsWith]
      have hlt : (m + 1) / 16 < m + 1 := Nat.div_lt_self (Nat.succ_pos m) (by norm_num)
      rw [hstep, parseHexNatAux_append, ih _ hlt acc]
      simp only [Option.some_bind, parseHexNatAux,
        hexDigitVal_hexDigitChar _ (Nat.mod_lt _ (by norm_num))]
      rw [List.length_append, List.length_singleton]
      congr 1
      rw [pow_succ, ← mul_assoc]
      omega

/-- The digit list of a positive number is nonempty. -/
theorem toHexDigits_ne_nil (n : ℕ) (hn : 0 < n) : toHexDigits n ≠ [] := by
  match n with
  | m + 1 =>
    rw [toHexDigits, toHexDigitsWith]
    simp

/-- Parsing the digit list of a positive number recovers the number. -/
theorem parseHexDigits_toHexDigits (n : ℕ) (hn : 0 < n) :
    parseHexDigits (toHexDigits n) = some n := by
  obtain ⟨c, rest, hcr⟩ := List.exists_cons_of_ne_nil (toHexDigits_ne_nil n hn)
  rw [hcr, parseHexDigits, ← hcr, parseHexNatAux_toHexDigits]
  simp

/-- A list none of whose characters satisfy the predicate is untouched by
dropWhile. -/
theorem dropWhile_eq_self_of_forall (p : Char → Bool) (l : List Char)
    (h : ∀ c ∈ l, p c = false) : l.dropWhile p = l := by
  cases l with
  | nil => rfl
  | cons c rest => simp [List.dropWhile_cons, h c (List.mem_cons_self c rest)]

/-- Stripping is the identity on whitespace-free text. -/
theorem pyStrip_eq_self (l : List Char) (h : ∀ c ∈ l, isPySpace c = false) :
    pyStrip l = l := by
  rw [pyStrip, dropWhile_eq_self_of_forall _ _ h,
    dropWhile_eq_self_of_forall _ _ (by simpa using h), List.reverse_reverse]

/-- Hexadecimal digit characters are not whitespace. -/
theorem isPySpace_hexDigitChar (d : ℕ) : isPySpace (hexDigitChar d) = false := by
  unfold hexDigitChar
  split <;> decide

/-- No character of a digit list is whitespace. -/
theorem mem_toHexDigits_not_space (n : ℕ) :
    ∀ c ∈ toHexDigits n, isPySpace c = false := by
  induction n using Nat.strong_induction_on with
  | _ n ih =>
    match n with
    | 0 => intro c hc; simp [toHexDigits, toHexDigitsWith] at hc
    | m + 1 =>
      intro c hc
      rw [toHexDigits, toHexDigitsWith] at hc
      rcases List.mem_append.mp hc with h1 | h2
      · exact ih _ (Nat.div_lt_self (Nat.succ_pos m) (by norm_num)) c h1
      · rw [List.mem_singleton.mp h2]; exact isPySpace_hexDigitChar _

/-- Decoding the Python hexadecimal text of a natural-number code yields the
rounded inverse-formula voltage. -/
theorem dacval_to_vval_pyHexNat (n : ℕ) :
    dacval_to_vval (pyHexNat n) = some (pyRound6 ((n : ℚ) / dacConst - 10)) := by
  have hstrip : pyStrip (pyHexNat n) = pyHexNat n := by
    refine pyStrip_eq_self _ ?_
    intro c hc
    rw [pyHexNat] at hc
    rcases hc with _ | ⟨_, hc⟩
    · decide
    rcases hc with _ | ⟨_, hc⟩
    · decide
    by_cases hn : n = 0
    · rw [if_pos hn] at hc
      rw [List.mem_singleton.mp hc]; decide
    · rw [if_neg hn] at hc
      exact mem_toHexDigits_not_space n c hc
  have hparse : parseHexInt (pyHexNat n) = some (n : ℤ) := by
    rw [pyHexNat, parseHexInt]
    simp only [if_neg (by decide : ¬('0' : Char) = '-'),
      if_neg (by decide : ¬('0' : Char) = '+')]
    have hmark : dropHexMark ('0' :: 'x' :: (if n = 0 then ['0'] else toHexDigits n)) =
        (if n = 0 then ['0'] else toHexDigits n) := by
      rw [dropHexMark]
      simp
    rw [hmark]
    by_cases hn : n = 0
    · subst hn; decide
    · rw [if_neg hn, parseHexDigits_toHexDigits n (Nat.pos_of_ne_zero hn)]
      simp
  rw [dacval_to_vval, hstrip, hparse]
  push_cast
  rfl

/-- Half-even rounding moves a rational by at most one half. -/
theorem abs_roundHalfEven_sub_le (q : ℚ) : |(roundHalfEven q : ℚ) - q| ≤ 1 / 2 := by
  have hfl : (⌊q⌋ : ℚ) ≤ q := Int.floor_le q
  have hfu : q < (⌊q⌋ : ℚ) + 1 := Int.lt_floor_add_one q
  rw [roundHalfEven]
  split_ifs with h1 h2 h3
  · rw [abs_sub_comm, abs_of_nonneg (by linarith)]; linarith
  · push_cast
    rw [abs_of_nonneg (by linarith)]; linarith
  · rw [abs_sub_comm, abs_of_nonneg (by linarith)]; linarith
  · push_cast
    rw [abs_of_nonneg (by linarith)]; linarith

/-- Rounding to six decimal places moves a rational by at most `5e-7`. -/
theorem abs_pyRound6_sub_le (q : ℚ) : |pyRound6 q - q| ≤ 1 / 2000000 := by
  have h := abs_roundHalfEven_sub_le (q * 10 ^ 6)
  have : pyRound6 q - q = ((roundHalfEven (q * 10 ^ 6) : ℚ) - q * 10 ^ 6) / 10 ^ 6 := by
    rw [pyRound6]; ring
  rw [this, abs_div]
  rw [show |((10 : ℚ) ^ 6)| = 10 ^ 6 by norm_num]
  rw [div_le_iff₀ (by norm_num)]
  linarith

/-- Python hex of a nonnegative integer code is the natural-number form. -/
theorem pyHex_nonneg (n : ℤ) (hn : 0 ≤ n) : pyHex n = pyHexNat n.toNat := by
  rw [pyHex, if_neg (by omega)]
  congr 1
  omega

/-- Amended round-trip bound: truncation loses at most one code step
(`1/838860.75`) and the six-decimal rounding at most another `5e-7`. -/
theorem codec_roundtrip (v : ℚ) (h1 : -10 ≤ v) (h2 : v ≤ 10) :
    ∃ w, dacval_to_vval (pyHex (vval_to_dacval v)) = some w ∧
      |w - v| ≤ 1 / dacConst + 1 / 2000000 := by
  have hc : (0 : ℚ) < dacConst := by norm_num [dacConst]
  have hx : 0 ≤ (v + 10) * dacConst := mul_nonneg (by linarith) hc.le
  have henc : vval_to_dacval v = ⌊(v + 10) * dacConst⌋ := by
    rw [vval_to_dacval, ratTrunc, if_pos hx]
  set n : ℤ := ⌊(v + 10) * dacConst⌋ with hn
  have hn0 : 0 ≤ n := Int.floor_nonneg.mpr hx
  have hcast : ((n.toNat : ℚ)) = (n : ℚ) := by
    have : ((n.toNat : ℤ)) = n := Int.toNat_of_nonneg hn0
    exact_mod_cast congrArg (fun z : ℤ => (z : ℚ)) this
  rw [henc, pyHex_nonneg n hn0, dacval_to_vval_pyHexNat, hcast]
  refine ⟨_, rfl, ?_⟩
  set y : ℚ := (n : ℚ) / dacConst - 10 with hy
  have hfl : (n : ℚ) ≤ (v + 10) * dacConst := Int.floor_le _
  have hfu : (v + 10) * dacConst < (n : ℚ) + 1 := Int.lt_floor_add_one _
  have hy1 : y ≤ v := by
    rw [hy, sub_le_iff_le_add, div_le_iff₀ hc]
    linarith
  have hy2 : v - y ≤ 1 / dacConst := by
    rw [hy]
    have : v + 10 < ((n : ℚ) + 1) / dacConst := by
      rw [lt_div_iff₀ hc]; linarith
    have hd : ((n : ℚ) + 1) / dacConst = (n : ℚ) / dacConst + 1 / dacConst := by
      ring
    linarith [this, hd.symm.le]
  have hr := abs_pyRound6_sub_le y
  calc |pyRound6 y - v| ≤ |pyRound6 y - y| + |y - v| := abs_sub_le _ _ _
    _ ≤ 1 / 2000000 + 1 / dacConst := by
        have : |y - v| = v - y := by
          rw [abs_sub_comm, abs_of_nonneg (by linarith)]
        rw [this]; linarith
    _ = 1 / dacConst + 1 / 2000000 := by ring

/-- C1: the spec's round-trip tolerance of `1e-6` fails: at
`v = -167772112/16777215` (about `-9.9999977` V, inside `[-10, 10]`) the
encode/hex/decode round trip returns `-9.999999`, which is about `1.265e-6`
away from `v`. -/
theorem codec_roundtrip_counterexample :
    (-10 : ℚ) ≤ -167772112 / 16777215 ∧ (-167772112 / 16777215 : ℚ) ≤ 10 ∧
    dacval_to_vval (pyHex (vval_to_dacval (-167772112 / 16777215))) =
      some (-9999999 / 1000000 : ℚ) ∧
    1 / 1000000 < |(-9999999 / 1000000 : ℚ) - (-167772112 / 16777215)| := by
  refine ⟨by norm_num, by norm_num, ?_, ?_⟩
  · have harg : ((-167772112 / 16777215 : ℚ) + 10) * dacConst = 19 / 10 := by
      norm_num [dacConst]
    have henc : vval_to_dacval (-167772112 / 16777215) = 1 := by
      rw [vval_to_dacval, harg, ratTrunc, if_pos (by norm_num)]
      rw [Int.floor_eq_iff] <;> norm_num
    rw [henc, pyHex_nonneg 1 (by norm_num)]
    rw [show ((1 : ℤ)).toNat = 1 from rfl, dacval_to_vval_pyHexNat, Nat.cast_one]
    have hfz : (⌊((1 : ℚ) / dacConst - 10) * 10 ^ 6⌋ : ℤ) = -9999999 := by
      rw [Int.floor_eq_iff] <;> norm_num [dacConst]
    have hcond : ((1 : ℚ) / dacConst - 10) * 10 ^ 6 - ((-9999999 : ℤ) : ℚ) < 1 / 2 := by
      norm_num [dacConst]
    rw [pyRound6, roundHalfEven, hfz, if_pos hcond]
    norm_num
  · have hdiff : (-9999999 / 1000000 : ℚ) - (-167772112 / 16777215) =
        -(21222785 / 16777215000000) := by norm_num
    rw [hdiff, abs_neg, abs_of_nonneg (by norm_num)]
    norm_num

/-- Closed-form instance of the amended round-trip theorem at `v = 0`. -/
theorem codec_roundtrip_witness :
    (-10 : ℚ) ≤ 0 ∧ (0 : ℚ) ≤ 10 ∧
    ∃ w, dacval_to_vval (pyHex (vval_to_dacval 0)) = some w ∧
      |w - 0| ≤ 1 / dacConst + 1 / 2000000 :=
  ⟨by norm_num, by norm_num, codec_roundtrip 0 (by norm_num) (by norm_num)⟩

/-- C7: on text that is not valid hexadecimal the decoder does not surface a
parse error; the bare `except: pass` makes it return Python `None`. -/
theorem decode_invalid_hex_returns_none : dacval_to_vval ['z', 'z'] = none := by
  decide

/-- C8: the encoder maps the span endpoints to the exact integer codes `0`
and `16777215 = 2 ^ 24 - 1`. -/
theorem encode_endpoints :
    vval_to_dacval (-10) = 0 ∧ vval_to_dacval 10 = 16777215 := by
  constructor
  · have e1 : ((-10 : ℚ) + 10) * dacConst = 0 := by norm_num [dacConst]
    rw [vval_to_dacval, e1, ratTrunc, if_pos le_rfl, Int.floor_zero]
  · have e2 : ((10 : ℚ) + 10) * dacConst = 16777215 := by norm_num [dacConst]
    rw [vval_to_dacval, e2, ratTrunc, if_pos (by norm_num)]
    rw [Int.floor_eq_iff] <;> norm_num

/-- Modelled from the spec: the slew-rate-limited update sequence of the
framework parameter (`step`/`inter_delay` are configured in `SP1060.__init__`
but the stepping loop itself lives in the instrument framework, outside this
repository).  Per the spec, a requested change is broken into commands of at
most `step` magnitude each, in the direction from current to target,
terminating exactly at the target; the final partial step may be smaller. -/
def rampValues (current target step : ℚ) : List ℚ :=
  let nsteps := (⌈|target - current| / step⌉).toNat
  let dir : ℚ := if target < current then -1 else 1
  ((List.range (nsteps - 1)).map (fun i : ℕ => current + dir * step * ((i : ℚ) + 1))) ++
    [target]

/-- Modelled from the spec: the framework interval validator (the source
constructs it as `vals.Numbers(min(min_val, max_val), max(min_val, max_val))`);
construction requires a nonempty interval, and a value is accepted exactly
when it lies inside the closed interval. -/
structure NumbersValidator where
  lo : ℚ
  hi : ℚ

/-- Modelled from the spec: constructing the interval validator fails when
the lower bound exceeds the upper bound. -/
def mkNumbers (lo hi : ℚ) : Option NumbersValidator :=
  if lo ≤ hi then some ⟨lo, hi⟩ else none

/-- Membership test of the interval validator. -/
def NumbersValidator.accepts (val : NumbersValidator) (v : ℚ) : Bool :=
  decide (val.lo ≤ v) && decide (v ≤ val.hi)

/-- `SP1060Channel.__init__` line 65: the voltage validator is built from the
normalized bounds `min(min_val, max_val)` and `max(min_val, max_val)`. -/
def channelVoltVal (min_val max_val : ℚ) : Option NumbersValidator :=
  mkNumbers (min min_val max_val) (max min_val max_val)

/-- Acceptance of a voltage by the channel constructed with the given
bounds (`false` when the validator could not be built). -/
def voltAccepts (min_val max_val v : ℚ) : Bool :=
  match channelVoltVal min_val max_val with
  | some val => val.accepts v
  | none => false

/-- Modelled from the spec: the framework set path for the `volt` parameter:
validate against the channel validator, then emit the slew-rate-limited
command sequence; a rejected value produces a range error and no commands. -/
def setVoltagePipeline (min_val max_val cached step v : ℚ) :
    Except String (List ℚ) :=
  match channelVoltVal min_val max_val with
  | none => Except.error "validator construction failed"
  | some val =>
    if val.accepts v then Except.ok (rampValues cached v step)
    else Except.error "range error"

/-- Number of transport writes a set result performs. -/
def pipelineWrites (r : Except String (List ℚ)) : ℕ :=
  match r with
  | Except.ok l => l.length
  | Except.error _ => 0

/-- C2: from a cached value of 0 V to a target of 1 V with max step 0.01 V,
the ramp issues at least 100 commands, each at most 0.01 V from its
predecessor (starting from the cached value), monotone toward the target,
and the final command lands exactly on 1 V. -/
theorem ramp_zero_to_one :
    100 ≤ (rampValues 0 1 (1 / 100)).length ∧
    List.Chain' (fun a b : ℚ => a ≤ b ∧ b - a ≤ 1 / 100)
      (0 :: rampValues 0 1 (1 / 100)) ∧
    (rampValues 0 1 (1 / 100)).getLast? = some 1 := by
  have hsteps : (⌈|(1 : ℚ) - 0| / (1 / 100)⌉).toNat = 100 := by
    rw [show |(1 : ℚ) - 0| / (1 / 100) = ((100 : ℤ) : ℚ) by norm_num, Int.ceil_intCast]
    rfl
  have hL : rampValues 0 1 (1 / 100) =
      (List.range 99).map (fun i : ℕ => ((i : ℚ) + 1) / 100) ++ [1] := by
    rw [rampValues]
    simp only [hsteps, if_neg (by norm_num : ¬(1 : ℚ) < 0)]
    congr 1
    refine List.map_congr_left ?_
    intro i _
    ring
  have hr100 : List.range 100 = 0 :: (List.range 99).map Nat.succ := by
    rw [show (100 : ℕ) = 99 + 1 from rfl]
    exact List.range_succ_eq_map 99
  have hr100b : List.range 100 = List.range 99 ++ [99] := by
    rw [show (100 : ℕ) = 99 + 1 from rfl]
    exact List.range_succ 99
  have h0L : (0 : ℚ) :: (List.range 99).map (fun i : ℕ => ((i : ℚ) + 1) / 100) =
      (List.range 100).map (fun i : ℕ => (i : ℚ) / 100) := by
    rw [hr100, List.map_cons, List.map_map]
    have hg0 : ((0 : ℕ) : ℚ) / 100 = 0 := by norm_num
    rw [hg0]
    have hmap : (List.range 99).map ((fun i : ℕ => (i : ℚ) / 100) ∘ Nat.succ) =
        (List.range 99).map (fun i : ℕ => ((i : ℚ) + 1) / 100) := by
      refine List.map_congr_left ?_
      intro i _
      simp only [Function.comp_apply]
      push_cast
      ring
    rw [hmap]
  refine ⟨?_, ?_, ?_⟩
  · rw [hL]; simp
  · rw [hL, ← List.cons_append, h0L]
    refine List.Chain'.append ?_ (List.chain'_singleton 1) ?_
    · rw [List.chain'_map]
      rw [show (100 : ℕ) = 99 + 1 from rfl, List.chain'_range_succ]
      intro i hi
      constructor
      · push_cast; linarith
      · push_cast; linarith
    · intro x hx y hy
      rw [hr100b, List.map_append] at hx
      simp only [List.map_cons, List.map_nil, List.getLast?_concat, Option.mem_def,
        Option.some_inj] at hx
      simp only [List.head?_cons, Option.mem_def, Option.some_inj] at hy
      subst hx; subst hy
      constructor <;> norm_num
  · rw [hL, List.getLast?_concat]

/-- C3: a requested voltage strictly outside the channel interval is rejected
with a range error and produces zero transport writes. -/
theorem out_of_range_set_rejected (lo hi cached step v : ℚ)
    (hout : v < min lo hi ∨ max lo hi < v) :
    setVoltagePipeline lo hi cached step v = Except.error "range error" ∧
    pipelineWrites (setVoltagePipeline lo hi cached step v) = 0 := by
  have hval : channelVoltVal lo hi = some ⟨min lo hi, max lo hi⟩ := by
    rw [channelVoltVal, mkNumbers, if_pos min_le_max]
  have hacc : NumbersValidator.accepts ⟨min lo hi, max lo hi⟩ v = false := by
    rw [NumbersValidator.accepts]
    rcases hout with h | h
    · simp [not_le.mpr h]
    · simp [not_le.mpr h]
  have hres : setVoltagePipeline lo hi cached step v = Except.error "range error" := by
    rw [setVoltagePipeline, hval]
    simp [hacc]
  exact ⟨hres, by rw [hres]; rfl⟩

/-- Closed-form instance of the range-rejection theorem: bounds [-10, 10],
cached 0, step 0.01, requested 11 V. -/
theorem out_of_range_set_rejected_witness :
    ((11 : ℚ) < min (-10) 10 ∨ max (-10 : ℚ) 10 < 11) ∧
    (setVoltagePipeline (-10) 10 0 (1 / 100) 11 = Except.error "range error" ∧
     pipelineWrites (setVoltagePipeline (-10) 10 0 (1 / 100) 11) = 0) := by
  have h : (11 : ℚ) < min (-10) 10 ∨ max (-10 : ℚ) 10 < 11 := by
    right
    rw [max_eq_right (by norm_num : (-10 : ℚ) ≤ 10)]
    norm_num
  exact ⟨h, out_of_range_set_rejected (-10) 10 0 (1 / 100) 11 h⟩

/-- C10: channel construction with inverted bounds does not fail — the
validator always builds (the source normalizes with min/max before the
framework check) — and the accepted range is the same for swapped bounds. -/
theorem inverted_bounds_normalize (a b : ℚ) :
    (channelVoltVal a b).isSome = true ∧
    ∀ v, voltAccepts a b v = voltAccepts b a v := by
  have hab : channelVoltVal a b = some ⟨min a b, max a b⟩ := by
    rw [channelVoltVal, mkNumbers, if_pos min_le_max]
  have hba : channelVoltVal b a = some ⟨min b a, max b a⟩ := by
    rw [channelVoltVal, mkNumbers, if_pos min_le_max]
  constructor
  · rw [hab]; rfl
  · intro v
    rw [voltAccepts, voltAccepts, hab, hba, min_comm b a, max_comm b a]

/-- Python `reply.replace(chr(13)+chr(10), chr(0))`-style removal: the
source's `reply.replace(CRLF, empty)` scanning left to right, removing
non-overlapping occurrences of the two-character terminator. -/
def pyReplaceCRLF : List Char → List Char
  | [] => []
  | [c] => [c]
  | c1 :: c2 :: rest =>
    if c1 = '\r' ∧ c2 = '\n' then pyReplaceCRLF rest
    else c1 :: pyReplaceCRLF (c2 :: rest)

/-- `SP1060.query_all` reply handling:
`reply.replace(CRLF, empty).split(semicolon)`.  Python `str.split` with a
one-character separator keeps empty fields, exactly the semantics of
`List.splitOn`. -/
def query_all_tokens (reply : List Char) : List (List Char) :=
  (pyReplaceCRLF reply).splitOn ';'

/-- Terminator removal is the identity on text without carriage returns. -/
theorem pyReplaceCRLF_eq_self (l : List Char) (h : '\r' ∉ l) :
    pyReplaceCRLF l = l := by
  induction l using pyReplaceCRLF.induct with
  | case1 => rfl
  | case2 c => rfl
  | case3 c1 c2 rest hc ih =>
    exact absurd (hc.1 ▸ List.mem_cons_self c1 (c2 :: rest)) h
  | case4 c1 c2 rest hc ih =>
    rw [pyReplaceCRLF, if_neg hc]
    rw [ih (fun hm => h (List.mem_cons_of_mem c1 hm))]

/-- A character absent from every token and different from the separator is
absent from the separator-joined text. -/
theorem not_mem_intercalate_semi (ts : List (List Char))
    (h : ∀ t ∈ ts, '\r' ∉ t) : '\r' ∉ [';'].intercalate ts := by
  induction ts with
  | nil => simp [List.intercalate]
  | cons t rest ih =>
    cases rest with
    | nil =>
      simpa [List.intercalate] using h t (List.mem_cons_self t [])
    | cons t2 rest2 =>
      intro hmem
      rw [List.intercalate, List.intersperse_cons_cons, List.flatten_cons,
        List.flatten_cons] at hmem
      rcases List.mem_append.mp hmem with h1 | h2
      · exact h t (List.mem_cons_self t _) h1
      rcases List.mem_append.mp h2 with h3 | h4
      · simp at h3
      · exact ih (fun u hu => h u (List.mem_cons_of_mem t hu))
          (by rw [List.intercalate]; exact h4)

/-- C9: a reply made of 24 semicolon-separated status tokens is split by
`query_all` into exactly those 24 tokens, verbatim and in order. -/
theorem query_all_splits (ts : List (List Char)) (h24 : ts.length = 24)
    (htok : ∀ t ∈ ts, ';' ∉ t ∧ '\r' ∉ t) :
    query_all_tokens ([';'].intercalate ts) = ts ∧
    (query_all_tokens ([';'].intercalate ts)).length = 24 := by
  have hne : ts ≠ [] := by intro h; subst h; simp at h24
  have hcr : '\r' ∉ [';'].intercalate ts :=
    not_mem_intercalate_semi ts (fun t ht => (htok t ht).2)
  have heq : query_all_tokens ([';'].intercalate ts) = ts := by
    rw [query_all_tokens, pyReplaceCRLF_eq_self _ hcr]
    exact List.splitOn_intercalate ts ';' (fun l hl => (htok l hl).1) hne
  exact ⟨heq, by rw [heq, h24]⟩

/-- Closed-form instance of the aggregate-status split theorem on the reply
built from 23 ON tokens and one OFF token. -/
theorem query_all_splits_witness :
    (List.replicate 23 ['O', 'N'] ++ [['O', 'F', 'F']]).length = 24 ∧
    (∀ t ∈ List.replicate 23 ['O', 'N'] ++ [['O', 'F', 'F']], ';' ∉ t ∧ '\r' ∉ t) ∧
    (query_all_tokens
        ([';'].intercalate (List.replicate 23 ['O', 'N'] ++ [['O', 'F', 'F']])) =
        List.replicate 23 ['O', 'N'] ++ [['O', 'F', 'F']] ∧
      (query_all_tokens
        ([';'].intercalate (List.replicate 23 ['O', 'N'] ++ [['O', 'F', 'F']]))).length = 24) :=
  ⟨by decide, by decide, query_all_splits _ (by decide) (by decide)⟩

/-- Upper-case hexadecimal digit characters, as produced by the `X` format
used in `_set_voltage`. -/
def hexDigitCharUpper : ℕ → Char
  | 0 => '0' | 1 => '1' | 2 => '2' | 3 => '3' | 4 => '4'
  | 5 => '5' | 6 => '6' | 7 => '7' | 8 => '8' | 9 => '9'
  | 10 => 'A' | 11 => 'B' | 12 => 'C' | 13 => 'D' | 14 => 'E' | _ => 'F'

/-- Python `format(code, chr(88))`: upper-case hexadecimal text of an
integer, minus sign for negative input, no `0x` marker. -/
def formatHexUpper (code : ℤ) : String :=
  let digits := if code.natAbs = 0 then ['0']
    else toHexDigitsWith hexDigitCharUpper code.natAbs
  if code < 0 then String.mk ('-' :: digits) else String.mk digits

/-- The command text of `SP1060._set_voltage`: decimal channel number, a
space, then the upper-case hex DAC code. -/
def setVoltageCmd (chan : ℕ) (code : ℤ) : String :=
  toString chan ++ " " ++ formatHexUpper code

/-- The command text of `SP1060._read_voltage`. -/
def readVoltageCmd (chan : ℕ) : String := toString chan ++ " V?"

/-- Bank-letter alias chosen at the head of `set_newWaveform`
(lines 258-266): selector 0/1/2/3 maps to A/B/C/D, anything else to the
empty alias. -/
def memsaveOf (wavemem : String) : String :=
  if wavemem = "0" then "A"
  else if wavemem = "1" then "B"
  else if wavemem = "2" then "C"
  else if wavemem = "3" then "D"
  else ""

/-- The 13 command strings issued by `SP1060.set_newWaveform`, in source
order (lines 268-292).  The first wave-memory command is the hard-coded
`C WAV-B CLR` of line 268; the later wave-memory and AWG commands use the
selected bank letter. -/
def newWaveformCmds (channel waveform frequency amplitude wavemem : String) :
    List String :=
  let memsave := memsaveOf wavemem
  ["C WAV-B CLR",
   "C SWG MODE 0",
   "C SWG WF " ++ waveform,
   "C SWG DF " ++ frequency,
   "C SWG AMP " ++ amplitude,
   "C SWG WMEM " ++ wavemem,
   "C SWG WFUN 0",
   "C SWG LIN " ++ channel,
   "C AWG-" ++ memsave ++ " CH " ++ channel,
   "C SWG APPLY",
   "C WAV-" ++ memsave ++ " SAVE",
   "C WAV-" ++ memsave ++ " WRITE",
   "C AWG-" ++ memsave ++ " START"]

/-- One transport-level event of the driver. -/
inductive Event
  | drain
  | request (cmd : String)
  | reply
  | rawRead
  | sleep
  deriving DecidableEq

/-- `SP1060.write`: `empty_buffer()` (a buffer drain) immediately followed by
`ask` (one request, one reply). -/
def writeE (cmd : String) : List Event :=
  [Event.drain, Event.request cmd, Event.reply]

/-- Trace of a command sequence with an inter-command sleep, the shape of
`set_newWaveform`. -/
def cmdSeqTrace : List String → List Event
  | [] => []
  | [c] => writeE c
  | c :: c2 :: rest => writeE c ++ Event.sleep :: cmdSeqTrace (c2 :: rest)

/-- The driver operations that issue instrument commands. -/
inductive DriverOp
  | setVoltage (chan : ℕ) (code : ℤ)
  | readVoltage (chan : ℕ)
  | rampSet (chan : ℕ) (codes : List ℤ)
  | queryAll
  | allOn
  | allOff
  | getSerial
  | getFirmware
  | newWaveform (channel waveform frequency amplitude wavemem : String)
  | initStatusCheck (reply : List Char)

/-- Transport trace of one driver operation, event by event from the
source: every command goes through `SP1060.write`; `get_serial` and
`get_firmware` additionally perform a raw read, a sleep and a final drain;
`set_newWaveform` sleeps between commands; construction (lines 137-139)
queries the aggregate status and, when an OFF token is present, turns all
channels on. -/
def traceOf : DriverOp → List Event
  | DriverOp.setVoltage chan code => writeE (setVoltageCmd chan code)
  | DriverOp.readVoltage chan => writeE (readVoltageCmd chan)
  | DriverOp.rampSet chan codes =>
      (codes.map (fun c => writeE (setVoltageCmd chan c) ++ [Event.sleep])).flatten
  | DriverOp.queryAll => writeE "All S?"
  | DriverOp.allOn => writeE "ALL ON"
  | DriverOp.allOff => writeE "ALL OFF"
  | DriverOp.getSerial => writeE "HARD?" ++ [Event.rawRead, Event.sleep, Event.drain]
  | DriverOp.getFirmware => writeE "SOFT?" ++ [Event.rawRead, Event.sleep, Event.drain]
  | DriverOp.newWaveform channel waveform frequency amplitude wavemem =>
      cmdSeqTrace (newWaveformCmds channel waveform frequency amplitude wavemem)
  | DriverOp.initStatusCheck reply =>
      writeE "All S?" ++
        (if ['O', 'F', 'F'] ∈ query_all_tokens reply then writeE "ALL ON" else [])

/-- Transport trace of a sequence of driver operations. -/
def driverTrace (ops : List DriverOp) : List Event := (ops.map traceOf).flatten

/-- Scanner enforcing that every request sits inside a
drain/request/reply cycle. -/
def reqDrained : List Event → Bool
  | [] => true
  | Event.drain :: Event.request _ :: Event.reply :: rest => reqDrained rest
  | Event.request _ :: _ => false
  | _ :: rest => reqDrained rest

/-- Head of a trace is not a bare request. -/
def headNotRequest : List Event → Bool
  | Event.request _ :: _ => false
  | _ => true

/-- A write cycle at the head of a trace passes the scanner throught. -/
theorem reqDrained_writeE (c : String) (l : List Event) :
    reqDrained (writeE c ++ l) = reqDrained l := rfl

/-- A sleep passes the scanner through. -/
theorem reqDrained_sleep (l : List Event) :
    reqDrained (Event.sleep :: l) = reqDrained l := rfl

/-- A raw read passes the scanner through. -/
theorem reqDrained_rawRead (l : List Event) :
    reqDrained (Event.rawRead :: l) = reqDrained l := rfl

/-- An extra drain passes the scanner through when no bare request
follows. -/
theorem reqDrained_drain (l : List Event) (h : headNotRequest l = true) :
    reqDrained (Event.drain :: l) = reqDrained l := by
  match l with
  | [] => rfl
  | Event.request c :: rest => simp [headNotRequest] at h
  | Event.drain :: rest => rfl
  | Event.reply :: rest => rfl
  | Event.rawRead :: rest => rfl
  | Event.sleep :: rest => rfl

/-- A sleep-separated command sequence passes the scanner through. -/
theorem reqDrained_cmdSeqTrace (cmds : List String) (l : List Event) :
    reqDrained (cmdSeqTrace cmds ++ l) = reqDrained l := by
  induction cmds using cmdSeqTrace.induct with
  | case1 => rfl
  | case2 c => exact reqDrained_writeE c l
  | case3 c c2 rest ih =>
    rw [cmdSeqTrace, List.append_assoc, List.cons_append, reqDrained_writeE,
      reqDrained_sleep, ih]

/-- A slew-rate-limited write burst passes the scanner through. -/
theorem reqDrained_rampTrace (chan : ℕ) (codes : List ℤ) (l : List Event) :
    reqDrained
      (((codes.map (fun c => writeE (setVoltageCmd chan c) ++ [Event.sleep])).flatten)
        ++ l) = reqDrained l := by
  induction codes with
  | nil => rfl
  | cons c cs ih =>
    rw [List.map_cons, List.flatten_cons, List.append_assoc, List.append_assoc,
      reqDrained_writeE, List.singleton_append, reqDrained_sleep, ih]

/-- Every operation trace starts with a non-request event (or is empty). -/
theorem headNotRequest_traceOf (op : DriverOp) (l : List Event)
    (h : headNotRequest l = true) : headNotRequest (traceOf op ++ l) = true := by
  cases op with
  | rampSet chan codes =>
    cases codes with
    | nil => exact h
    | cons c cs => rfl
  | newWaveform channel waveform frequency amplitude wavemem => rfl
  | _ => rfl

/-- Prepending one operation trace preserves the scanner verdict, provided
no bare request follows. -/
theorem reqDrained_traceOf_append (op : DriverOp) (l : List Event)
    (h : headNotRequest l = true) :
    reqDrained (traceOf op ++ l) = reqDrained l := by
  cases op with
  | setVoltage chan code => exact reqDrained_writeE _ _
  | readVoltage chan => exact reqDrained_writeE _ _
  | rampSet chan codes => exact reqDrained_rampTrace _ _ _
  | queryAll => exact reqDrained_writeE _ _
  | allOn => exact reqDrained_writeE _ _
  | allOff => exact reqDrained_writeE _ _
  | getSerial =>
    rw [traceOf, List.append_assoc, reqDrained_writeE]
    rw [show [Event.rawRead, Event.sleep, Event.drain] ++ l =
      Event.rawRead :: Event.sleep :: Event.drain :: l from rfl]
    rw [reqDrained_rawRead, reqDrained_sleep, reqDrained_drain l h]
  | getFirmware =>
    rw [traceOf, List.append_assoc, reqDrained_writeE]
    rw [show [Event.rawRead, Event.sleep, Event.drain] ++ l =
      Event.rawRead :: Event.sleep :: Event.drain :: l from rfl]
    rw [reqDrained_rawRead, reqDrained_sleep, reqDrained_drain l h]
  | newWaveform channel waveform frequency amplitude wavemem =>
    exact reqDrained_cmdSeqTrace _ _
  | initStatusCheck reply =>
    rw [traceOf, List.append_assoc, reqDrained_writeE]
    split_ifs with hm
    · exact reqDrained_writeE _ _
    · rw [List.nil_append]

/-- A full driver trace starts with a non-request event (or is empty). -/
theorem headNotRequest_driverTrace (ops : List DriverOp) :
    headNotRequest (driverTrace ops) = true := by
  induction ops with
  | nil => rfl
  | cons op rest ih =>
    rw [driverTrace, List.map_cons, List.flatten_cons]
    exact headNotRequest_traceOf op _ ih

/-- The scanner accepts every driver trace. -/
theorem reqDrained_driverTrace (ops : List DriverOp) :
    reqDrained (driverTrace ops) = true := by
  induction ops with
  | nil => rfl
  | cons op rest ih =>
    rw [driverTrace, List.map_cons, List.flatten_cons]
    show reqDrained (traceOf op ++ driverTrace rest) = true
    rw [reqDrained_traceOf_append op _ (headNotRequest_driverTrace rest)]
    exact ih

/-- Positional reading of the scanner: in an accepted trace, every request
is immediately preceded by a drain and immediately followed by exactly one
reply. -/
theorem reqDrained_spec (t : List Event) (ht : reqDrained t = true) :
    ∀ i c, t[i]? = some (Event.request c) →
      0 < i ∧ t[i-1]? = some Event.drain ∧ t[i+1]? = some Event.reply := by
  induction t using reqDrained.induct with
  | case1 =>
    intro i c hc
    simp at hc
  | case2 c0 rest ih =>
    have hrest : reqDrained rest = true := ht
    intro i c hc
    match i with
    | 0 => simp at hc
    | 1 => exact ⟨by norm_num, by simp, by simp⟩
    | 2 => simp at hc
    | (j+3) =>
      have hc' : rest[j]? = some (Event.request c) := by simpa using hc
      obtain ⟨hj, h1, h2⟩ := ih hrest j c hc'
      refine ⟨by omega, ?_, ?_⟩
      · have hidx : j + 3 - 1 = (j - 1) + 3 := by omega
        rw [hidx]
        simpa using h1
      · have hidx : j + 3 + 1 = (j + 1) + 3 := by omega
        rw [hidx]
        simpa using h2
  | case3 cmd tail =>
    have hfalse : reqDrained (Event.request cmd :: tail) = false := rfl
    simp [hfalse] at ht
  | case4 head rest hx1 hx2 ih =>
    have hstep : reqDrained (head :: rest) = reqDrained rest := by
      match head with
      | Event.reply => rfl
      | Event.rawRead => rfl
      | Event.sleep => rfl
      | Event.request c => exact absurd rfl (fun h => hx2 c h)
      | Event.drain =>
        match rest with
        | [] => rfl
        | Event.drain :: r2 => rfl
        | Event.reply :: r2 => rfl
        | Event.rawRead :: r2 => rfl
        | Event.sleep :: r2 => rfl
        | Event.request c2 :: r2 =>
          match r2 with
          | [] => rfl
          | Event.reply :: r3 => exact absurd rfl (fun h => hx1 c2 r3 rfl h)
          | Event.drain :: r3 => rfl
          | Event.request c3 :: r3 => rfl
          | Event.rawRead :: r3 => rfl
          | Event.sleep :: r3 => rfl
    have hrest : reqDrained rest = true := by rw [← hstep]; exact ht
    intro i c hc
    match i with
    | 0 =>
      rw [List.getElem?_cons_zero] at hc
      exact absurd (Option.some_inj.mp hc).symm (fun h => hx2 c h.symm)
    | (j+1) =>
      have hc' : rest[j]? = some (Event.request c) := by simpa using hc
      obtain ⟨hj, h1, h2⟩ := ih hrest j c hc'
      refine ⟨by omega, ?_, ?_⟩
      · have hidx : j + 1 - 1 = (j - 1) + 1 := by omega
        rw [hidx]
        simpa using h1
      · simpa using h2

/-- C4: with bank selector 0 the selected alias is A, yet the command
sequence emitted by `set_newWaveform` opens with the hard-coded `C WAV-B CLR`
— a wave-memory command carrying bank letter B — while every other
bank-lettered command uses A. -/
theorem newWaveform_bank0_cmds :
    memsaveOf "0" = "A" ∧
    newWaveformCmds "12" "0" "100.0" "5.0" "0" =
      ["C WAV-B CLR", "C SWG MODE 0", "C SWG WF 0", "C SWG DF 100.0",
       "C SWG AMP 5.0", "C SWG WMEM 0", "C SWG WFUN 0", "C SWG LIN 12",
       "C AWG-A CH 12", "C SWG APPLY", "C WAV-A SAVE", "C WAV-A WRITE",
       "C AWG-A START"] := by
  decide

/-- C5: during construction, exactly one ALL ON command is issued when the
aggregate status reply contains an OFF token, and none otherwise. -/
theorem init_all_on_count (reply : List Char) :
    (traceOf (DriverOp.initStatusCheck reply)).count (Event.request "ALL ON") =
      if ['O', 'F', 'F'] ∈ query_all_tokens reply then 1 else 0 := by
  rw [traceOf]
  split_ifs with hm
  · decide
  · decide

/-- C6: in every trace the driver can generate, a request is always
immediately preceded by a buffer drain and immediately followed by exactly
one reply — every command is a drain/request/reply cycle, with no
fire-and-forget write. -/
theorem driver_requests_drained (ops : List DriverOp) :
    ∀ i c, (driverTrace ops)[i]? = some (Event.request c) →
      0 < i ∧ (driverTrace ops)[i-1]? = some Event.drain ∧
      (driverTrace ops)[i+1]? = some Event.reply :=
  reqDrained_spec (driverTrace ops) (reqDrained_driverTrace ops)

/-- Closed-form instance of the drain-cycle theorem: a lone ALL ON command. -/
theorem driver_requests_drained_witness :
    (driverTrace [DriverOp.allOn])[1]? = some (Event.request "ALL ON") ∧
    (0 < 1 ∧ (driverTrace [DriverOp.allOn])[0]? = some Event.drain ∧
     (driverTrace [DriverOp.allOn])[2]? = some Event.reply) :=
  ⟨by decide, driver_requests_drained [DriverOp.allOn] 1 "ALL ON" (by decide)⟩
